import Mathlib

/-!
Verification development for the Code X Emotion Analyzer (`src/app.py`).

The file gives a shallow embedding of the algorithmic core of the app:
the label-reconciliation pipeline of `get_emotion_from_huggingface`
(lines 138-188), the amplitude-normalization step of `preprocess_audio`
(lines 190-209), the recording store of `save_recording` and `main`
(lines 314-325, 479-541), the feedback-log reading loop (lines 754-774)
and the mode computation `df['Emotion'].mode()[0]` (line 627).

Python floats are embedded as rationals; the one place where IEEE special
values matter (dividing an all-zero signal by its zero peak) uses an
explicit value type with a NaN constructor.  Python dicts (which preserve
insertion order, overwrite values in place and append new keys at the end)
are embedded as association lists with exactly those operations.
-/

namespace App

/-- The seven canonical emotion labels, i.e. the keys of `EMOTION_CONFIG`
(app.py lines 86-94). -/
inductive Emotion
  | anger
  | disgust
  | fear
  | happiness
  | neutral
  | sadness
  | surprise
deriving DecidableEq, Repr

/-- A raw classifier label: an arbitrary string, embedded as its character list. -/
abbrev Label := List Char

/-- A Python dict from canonical emotions to float scores, embedded as an
insertion-ordered association list (the app builds these dicts starting from
`{}`, so keys are never duplicated). -/
abbrev EmotionDict := List (Emotion × ℚ)

/-- `label.lower()`: character-wise lowercasing. -/
def lower (l : Label) : Label := l.map Char.toLower

/-- Auxiliary for substring containment: does the pattern occur at the head? -/
def startsWithChars : List Char → List Char → Bool
  | _, [] => true
  | [], _ :: _ => false
  | c :: cs, p :: ps => c = p && startsWithChars cs ps

/-- Python's `pat in l` for strings: contiguous-substring containment. -/
def hasSub : List Char → List Char → Bool
  | l, pat =>
    match l with
    | [] => startsWithChars [] pat
    | _ :: rest => startsWithChars l pat || hasSub rest pat

/-- The `if/elif` chain of app.py lines 159-172: the canonical slot a raw
label is mapped to, or `none` when no synonym substring matches. -/
def matchLabel (label : Label) : Option Emotion :=
  let l := lower label
  if hasSub l (("anger").data) then some .anger
  else if hasSub l (("disgust").data) then some .disgust
  else if hasSub l (("fear").data) then some .fear
  else if hasSub l (("happy").data) || hasSub l (("joy").data) then some .happiness
  else if hasSub l (("neutral").data) then some .neutral
  else if hasSub l (("sad").data) then some .sadness
  else if hasSub l (("surprise").data) then some .surprise
  else none

/-- The synonym test of a single canonical emotion, read off the branch
conditions of app.py lines 159-172, independent of the branch order. -/
def synMatch (e : Emotion) (label : Label) : Bool :=
  let l := lower label
  match e with
  | .anger => hasSub l (("anger").data)
  | .disgust => hasSub l (("disgust").data)
  | .fear => hasSub l (("fear").data)
  | .happiness => hasSub l (("happy").data) || hasSub l (("joy").data)
  | .neutral => hasSub l (("neutral").data)
  | .sadness => hasSub l (("sad").data)
  | .surprise => hasSub l (("surprise").data)

/-- The canonical taxonomy order: the key order of `EMOTION_CONFIG`, which is
also the branch order of the `if/elif` chain. -/
def canonicalOrder : List Emotion :=
  [.anger, .disgust, .fear, .happiness, .neutral, .sadness, .surprise]

/-- Python dict assignment `d[k] = v` on an insertion-ordered association
list: overwrite in place if the key is present, else append at the end. -/
def dictSet : EmotionDict → Emotion → ℚ → EmotionDict
  | [], k, v => [(k, v)]
  | p :: rest, k, v => if p.1 = k then (k, v) :: rest else p :: dictSet rest k v

/-- Python dict lookup `d[k]` (as an option). -/
def dictGet : EmotionDict → Emotion → Option ℚ
  | [], _ => none
  | p :: rest, k => if p.1 = k then some p.2 else dictGet rest k

/-- Python membership test `k in d`. -/
def dictHas : EmotionDict → Emotion → Bool
  | [], _ => false
  | p :: rest, k => if p.1 = k then true else dictHas rest k

/-- The key list of a dict, in insertion order. -/
def dictKeys (d : EmotionDict) : List Emotion := d.map Prod.fst

/-- One iteration of the loop at app.py lines 155-172: assign the item's
score to its matched slot (an assignment, `emotions['X'] = score`),
or drop the item when no synonym matches. -/
def applyItem (d : EmotionDict) (item : Label × ℚ) : EmotionDict :=
  match matchLabel item.1 with
  | some e => dictSet d e item.2
  | none => d

/-- The full loop of app.py lines 154-172: fold the classifier result into
an emotions dict, starting from `{}`. -/
def collectEmotions (result : List (Label × ℚ)) : EmotionDict :=
  result.foldl applyItem []

/-- App.py lines 174-177: `for emotion in EMOTION_CONFIG.keys(): if emotion
not in emotions: emotions[emotion] = 0.0`. -/
def fillMissing (d : EmotionDict) : EmotionDict :=
  canonicalOrder.foldl (fun d2 e => if dictHas d2 e then d2 else d2 ++ [(e, 0)]) d

/-- `sum(emotions.values())` (app.py line 180). -/
def dictTotal (d : EmotionDict) : ℚ := (d.map Prod.snd).sum

/-- App.py lines 180-182: divide every slot by the total when it is
positive, otherwise leave the dict untouched. -/
def normalizeDict (d : EmotionDict) : EmotionDict :=
  if dictTotal d > 0 then d.map (fun p => (p.1, p.2 / dictTotal d)) else d

/-- The pure core of `get_emotion_from_huggingface` (app.py lines 154-184),
mapping the raw classifier result (a list of label/score pairs) to the
returned emotions dict.  This is the spec's `reconcile`. -/
def get_emotion_from_huggingface (result : List (Label × ℚ)) : EmotionDict :=
  normalizeDict (fillMissing (collectEmotions result))

/-- Auxiliary for Python's `max` over dict keys with `key=emotions.get`:
keep the current best, replace it only on a strictly greater value, so the
first key attaining the maximum wins. -/
def maxKeyAux (cur : Emotion × ℚ) : EmotionDict → Emotion
  | [] => cur.1
  | p :: rest => if p.2 > cur.2 then maxKeyAux p rest else maxKeyAux cur rest

/-- `max(emotions, key=emotions.get)` (app.py lines 319, 492): first key of
maximal value in iteration (= insertion) order; `none` on the empty dict
(where Python would raise `ValueError`). -/
def maxKey : EmotionDict → Option Emotion
  | [] => none
  | p :: rest => some (maxKeyAux p rest)

/-- Auxiliary for Python's `max` over the value list. -/
def maxValAux (cur : ℚ) : List ℚ → ℚ
  | [] => cur
  | v :: rest => if v > cur then maxValAux v rest else maxValAux cur rest

/-- `max(emotions.values())` (app.py lines 320, 540); `none` on the empty
dict (where Python would raise `ValueError`). -/
def maxVal (d : EmotionDict) : Option ℚ :=
  match d.map Prod.snd with
  | [] => none
  | v :: rest => some (maxValAux v rest)

/-- A session-store recording (the dict built in `save_recording`, app.py
lines 316-324).  Timestamps and paths are opaque data. -/
structure Recording where
  timestamp : ℕ
  emotions : EmotionDict
  dominant_emotion : Emotion
  confidence : ℚ
  intensity : ℚ
  audio_path : List Char
  language : List Char
deriving DecidableEq

/-- `save_recording` (app.py lines 314-325): build the recording dict and
append it to `st.session_state.recordings`.  `none` embeds the `ValueError`
Python's `max` would raise on an empty emotions dict (unreachable in the
app, where the dict always has the 7 canonical slots). -/
def save_recording (recordings : List Recording) (emotions : EmotionDict) (ts : ℕ)
    (audio : List Char) (intensity : ℚ) (lang : List Char) : Option (List Recording) :=
  match maxKey emotions, maxVal emotions with
  | some dom, some conf =>
      some (recordings ++ [⟨ts, emotions, dom, conf, intensity, audio, lang⟩])
  | _, _ => none

/-- One analyze-and-save attempt of `main` (app.py lines 479-484).  The
classifier outcome is `none` when `get_emotion_from_huggingface` returns
`None` (missing API token, line 140-142, or a raised exception, lines
186-188); only a truthy (non-empty) emotions dict reaches
`save_recording`. -/
def process_attempt (recs : List Recording) (classifierOut : Option (List (Label × ℚ)))
    (ts : ℕ) (audio : List Char) (intensity : ℚ) (lang : List Char) : List Recording :=
  match classifierOut with
  | none => recs
  | some result =>
      let emotions := get_emotion_from_huggingface result
      if emotions.isEmpty then recs
      else
        match save_recording recs emotions ts audio intensity lang with
        | some s => s
        | none => recs

/-- `st.session_state.recordings[-1]['confidence'] *= factor` (app.py lines
530, 535, with factors 1.1 and 0.9).  The empty case cannot occur in the
app flow (the buttons render only after `save_recording`); it is modelled
as the identity. -/
def adjust_confidence (recs : List Recording) (factor : ℚ) : List Recording :=
  match recs.getLast? with
  | none => recs
  | some r => recs.dropLast ++ [{ r with confidence := r.confidence * factor }]

/-- `st.session_state.recordings[-1]['confidence'] = max(emotions.values())`
(app.py line 540); `emotions` is the dict the tail recording was created
from.  As above, the unreachable empty cases are modelled as the
identity. -/
def reset_confidence (recs : List Recording) (emotions : EmotionDict) : List Recording :=
  match recs.getLast?, maxVal emotions with
  | some r, some m => recs.dropLast ++ [{ r with confidence := m }]
  | _, _ => recs

/-- A numpy float64 value: a rational, or one of the special values that
arise from dividing by zero (`0.0/0.0` is NaN, `x/0.0` is ±inf; numpy emits
a RuntimeWarning but does not raise, and app.py line 15 suppresses all
warnings). -/
inductive NpVal
  | nan
  | posinf
  | neginf
  | val (q : ℚ)
deriving DecidableEq

/-- Numpy elementwise division of a sample by the scalar peak, with IEEE
semantics at zero. -/
def npDiv (x m : ℚ) : NpVal :=
  if m = 0 then
    if x = 0 then .nan else if x > 0 then .posinf else .neginf
  else .val (x / m)

/-- `np.max(np.abs(y))`; `none` on the empty buffer (where numpy raises). -/
def maxAbs : List ℚ → Option ℚ
  | [] => none
  | v :: rest => some (rest.foldl (fun m w => max m |w|) |v|)

/-- The amplitude-normalization step `y = y / np.max(np.abs(y))` of
`preprocess_audio` (app.py line 200). -/
def normalize_audio (y : List ℚ) : Option (List NpVal) :=
  (maxAbs y).map (fun m => y.map (fun v => npDiv v m))

/-- One feedback record as written to `feedback.jsonl` (app.py lines
733-741; the free-text and timestamp fields are irrelevant to the
aggregates and omitted). -/
structure FeedbackEntry where
  recording_idx : ℕ
  predicted_emotion : Emotion
  correct_emotion : Emotion
  is_correct : Bool
  helpfulness : ℕ
deriving DecidableEq

/-- The read-back loop of app.py lines 756-759: `for line in f:
feedback_data.append(json.loads(line))`.  A line is embedded as `some`
entry when `json.loads` succeeds and `none` when it raises; the loop has no
try/except, so the first `none` aborts the whole read with nothing
returned. -/
def read_feedback : List (Option FeedbackEntry) → Option (List FeedbackEntry)
  | [] => some []
  | none :: _ => none
  | some e :: rest => (read_feedback rest).map (fun l => e :: l)

/-- `(df_feedback['is_correct'].sum() / len(df_feedback)) * 100` (app.py
line 766). -/
def feedback_accuracy (entries : List FeedbackEntry) : ℚ :=
  ((entries.countP (fun e => e.is_correct) : ℚ) / (entries.length : ℚ)) * 100

/-- `df_feedback['helpfulness'].mean()` (app.py line 770). -/
def feedback_mean_helpfulness (entries : List FeedbackEntry) : ℚ :=
  ((entries.map (fun e => (e.helpfulness : ℚ))).sum) / (entries.length : ℚ)

/-- The statistics block of app.py lines 754-774: the three aggregates are
computed only when every line of the log parses. -/
def feedback_stats (lines : List (Option FeedbackEntry)) : Option (ℚ × ℚ × ℕ) :=
  (read_feedback lines).map
    (fun entries =>
      (feedback_accuracy entries, feedback_mean_helpfulness entries, entries.length))

/-- The display string of a canonical emotion (`EMOTION_CONFIG` keys,
stored in `recording['dominant_emotion']`). -/
def emotionName : Emotion → List Char
  | .anger => ("Anger").data
  | .disgust => ("Disgust").data
  | .fear => ("Fear").data
  | .happiness => ("Happiness").data
  | .neutral => ("Neutral").data
  | .sadness => ("Sadness").data
  | .surprise => ("Surprise").data

/-- Python / numpy string comparison: lexicographic on code points. -/
def strLtChars : List Char → List Char → Bool
  | [], [] => false
  | [], _ :: _ => true
  | _ :: _, [] => false
  | c :: cs, e :: es =>
      if c.val < e.val then true else if e.val < c.val then false else strLtChars cs es

/-- Maximum of a list of counts (with 0 for the empty list). -/
def maxNatList (l : List ℕ) : ℕ := l.foldl max 0

/-- `series.mode()[0]` for a series of strings (app.py line 627): pandas
returns the distinct values of maximal count sorted ascending, and `[0]`
picks the least, i.e. the lexicographically smallest value among those of
maximal count; `none` for the empty series (where `[0]` would raise). -/
def pandas_mode (labels : List (List Char)) : Option (List Char) :=
  let m := maxNatList (labels.map (fun x => labels.count x))
  match labels.filter (fun x => labels.count x = m) with
  | [] => none
  | c :: rest => some (rest.foldl (fun best x => if strLtChars x best then x else best) c)

/-- `df['Emotion'].mode()[0]` over the recording store (app.py lines
607-627): the mode of the dominant-emotion column. -/
def most_common (recs : List Recording) : Option (List Char) :=
  pandas_mode (recs.map (fun r => emotionName r.dominant_emotion))

/-- The position of an emotion in the canonical taxonomy order. -/
def taxIdx : Emotion → ℕ
  | .anger => 0
  | .disgust => 1
  | .fear => 2
  | .happiness => 3
  | .neutral => 4
  | .sadness => 5
  | .surprise => 6

/-- The last score in the classifier result whose label maps to the given
slot (used to state the overwrite semantics of the collection loop). -/
def lastMatchScore (res : List (Label × ℚ)) (e : Emotion) : Option ℚ :=
  ((res.filter (fun it => matchLabel it.1 = some e)).getLast?).map Prod.snd

/-- A fixed sample recording, used to instantiate theorems with
hypotheses. -/
def sampleRecording : Recording :=
  ⟨0, [(Emotion.anger, 1), (Emotion.disgust, 0)], Emotion.anger, 1, 1, [], []⟩

/-- A well-formed feedback entry used in concrete instances. -/
def sampleEntry1 : FeedbackEntry := ⟨0, Emotion.happiness, Emotion.happiness, true, 5⟩

/-- A second well-formed feedback entry used in concrete instances. -/
def sampleEntry2 : FeedbackEntry := ⟨1, Emotion.anger, Emotion.sadness, false, 3⟩


/-! ### Dictionary lemmas -/

theorem dictKeys_nil : dictKeys [] = [] := rfl

theorem dictKeys_cons (p : Emotion × ℚ) (rest : EmotionDict) :
    dictKeys (p :: rest) = p.1 :: dictKeys rest := rfl

theorem dictKeys_append (d1 d2 : EmotionDict) :
    dictKeys (d1 ++ d2) = dictKeys d1 ++ dictKeys d2 := by
  simp [dictKeys]

theorem dictGet_set_self (d : EmotionDict) (k : Emotion) (v : ℚ) :
    dictGet (dictSet d k v) k = some v := by
  induction d with
  | nil => simp [dictSet, dictGet]
  | cons p rest ih =>
    by_cases h : p.1 = k
    · simp [dictSet, h, dictGet]
    · simp [dictSet, h, dictGet, ih]

theorem dictGet_set_other (d : EmotionDict) (k k2 : Emotion) (v : ℚ) (h : k2 ≠ k) :
    dictGet (dictSet d k v) k2 = dictGet d k2 := by
  induction d with
  | nil => simp [dictSet, dictGet, Ne.symm h]
  | cons p rest ih =>
    by_cases h2 : p.1 = k
    · subst h2
      simp [dictSet, dictGet, Ne.symm h, h]
    · simp [dictSet, h2, dictGet, ih]

theorem dictHas_iff (d : EmotionDict) (k : Emotion) :
    dictHas d k = true ↔ k ∈ dictKeys d := by
  induction d with
  | nil => simp [dictHas, dictKeys_nil]
  | cons p rest ih =>
    rw [dictKeys_cons]
    by_cases h : p.1 = k
    · simp [dictHas, h]
    · simp [dictHas, h, ih, Ne.symm h]

theorem dictHas_append (d1 d2 : EmotionDict) (k : Emotion) :
    dictHas (d1 ++ d2) k = (dictHas d1 k || dictHas d2 k) := by
  induction d1 with
  | nil => simp [dictHas]
  | cons p rest ih =>
    by_cases h : p.1 = k
    · simp [dictHas, h]
    · simp [dictHas, h, ih]

theorem dictKeys_set_eq (d : EmotionDict) (k : Emotion) (v : ℚ) :
    dictKeys (dictSet d k v) =
      if k ∈ dictKeys d then dictKeys d else dictKeys d ++ [k] := by
  induction d with
  | nil => simp [dictSet, dictKeys]
  | cons p rest ih =>
    by_cases h : p.1 = k
    · rw [dictSet, if_pos h, dictKeys_cons, dictKeys_cons]
      have hm : k ∈ p.1 :: dictKeys rest := by simp [h]
      rw [if_pos hm, h]
    · rw [dictSet, if_neg h, dictKeys_cons, dictKeys_cons, ih]
      have hne : ¬ k = p.1 := Ne.symm h
      by_cases hm : k ∈ dictKeys rest
      · rw [if_pos hm, if_pos (by simp [hm])]
      · rw [if_neg hm, if_neg (by simp [hne, hm])]
        simp

theorem dictSet_keys_nodup (d : EmotionDict) (k : Emotion) (v : ℚ)
    (h : (dictKeys d).Nodup) : (dictKeys (dictSet d k v)).Nodup := by
  rw [dictKeys_set_eq]
  by_cases hm : k ∈ dictKeys d
  · simpa [hm] using h
  · simp only [hm, if_false]
    simp [List.nodup_append, h, hm]

theorem dictSet_mem (d : EmotionDict) (k : Emotion) (v : ℚ) :
    ∀ q ∈ dictSet d k v, q = (k, v) ∨ q ∈ d := by
  induction d with
  | nil => simp [dictSet]
  | cons p rest ih =>
    by_cases h : p.1 = k
    · intro q hq
      simp [dictSet, h] at hq
      rcases hq with hq | hq
      · exact Or.inl (by simp [hq])
      · exact Or.inr (by simp [hq])
    · intro q hq
      simp [dictSet, h] at hq
      rcases hq with hq | hq
      · exact Or.inr (by simp [hq])
      · rcases ih q hq with h2 | h2
        · exact Or.inl h2
        · exact Or.inr (by simp [h2])


/-! ### Collection-loop invariants -/

theorem collect_aux_keys_nodup (res : List (Label × ℚ)) :
    ∀ d : EmotionDict, (dictKeys d).Nodup →
      (dictKeys (res.foldl applyItem d)).Nodup := by
  induction res with
  | nil => intro d hd; simpa using hd
  | cons it rest ih =>
    intro d hd
    rw [List.foldl_cons]
    apply ih
    unfold applyItem
    cases matchLabel it.1 with
    | none => exact hd
    | some e => exact dictSet_keys_nodup d e it.2 hd

theorem collectEmotions_keys_nodup (res : List (Label × ℚ)) :
    (dictKeys (collectEmotions res)).Nodup :=
  collect_aux_keys_nodup res [] (by simp [dictKeys_nil])

theorem collect_aux_nonneg (res : List (Label × ℚ)) :
    ∀ d : EmotionDict, (∀ p ∈ d, 0 ≤ p.2) → (∀ p ∈ res, 0 ≤ p.2) →
      ∀ p ∈ res.foldl applyItem d, 0 ≤ p.2 := by
  induction res with
  | nil => intro d hd _; simpa using hd
  | cons it rest ih =>
    intro d hd hres
    rw [List.foldl_cons]
    apply ih
    · intro p hp
      unfold applyItem at hp
      cases hm : matchLabel it.1 with
      | none => rw [hm] at hp; exact hd p hp
      | some e =>
        rw [hm] at hp
        rcases dictSet_mem d e it.2 p hp with h2 | h2
        · rw [h2]; exact hres it (by simp)
        · exact hd p h2
    · intro p hp; exact hres p (by simp [hp])

theorem collectEmotions_nonneg (res : List (Label × ℚ)) (h : ∀ p ∈ res, 0 ≤ p.2) :
    ∀ p ∈ collectEmotions res, 0 ≤ p.2 :=
  collect_aux_nonneg res [] (by simp) h

/-! ### Structure of `fillMissing` -/

theorem fill_aux_eq (l : List Emotion) :
    ∀ d : EmotionDict, l.Nodup →
      l.foldl (fun d2 e => if dictHas d2 e then d2 else d2 ++ [(e, 0)]) d
        = d ++ (l.filter (fun e => !dictHas d e)).map (fun e => (e, 0)) := by
  induction l with
  | nil => intro d _; simp
  | cons e rest ih =>
    intro d hnd
    rw [List.nodup_cons] at hnd
    rw [List.foldl_cons]
    by_cases h : dictHas d e
    · rw [if_pos h, ih d hnd.2]
      congr 1
      rw [List.filter_cons, h]
      simp
    · rw [if_neg h, ih (d ++ [(e, 0)]) hnd.2]
      have hfil : rest.filter (fun x => !dictHas (d ++ [(e, 0)]) x)
          = rest.filter (fun x => !dictHas d x) := by
        apply List.filter_congr
        intro x hx
        have hxe : ¬ (e = x) := fun h2 => hnd.1 (h2 ▸ hx)
        rw [dictHas_append]
        simp [dictHas, hxe]
      rw [hfil, List.filter_cons]
      simp [h]

theorem fillMissing_eq (d : EmotionDict) :
    fillMissing d
      = d ++ (canonicalOrder.filter (fun e => !dictHas d e)).map (fun e => (e, 0)) :=
  fill_aux_eq canonicalOrder d (by decide)

theorem mem_canonicalOrder (e : Emotion) : e ∈ canonicalOrder := by
  cases e <;> simp [canonicalOrder]

theorem fillMissing_keys_nodup (d : EmotionDict) (h : (dictKeys d).Nodup) :
    (dictKeys (fillMissing d)).Nodup := by
  rw [fillMissing_eq, dictKeys_append]
  have hkeys : dictKeys ((canonicalOrder.filter (fun e => !dictHas d e)).map (fun e => (e, 0)))
      = canonicalOrder.filter (fun e => !dictHas d e) := by
    simp only [dictKeys, List.map_map]
    rw [show (Prod.fst ∘ fun e : Emotion => (e, (0 : ℚ))) = id from rfl, List.map_id]
  rw [hkeys]
  apply List.Nodup.append h
  · exact List.Nodup.filter _ (by decide)
  · intro a ha hamem
    have h2 : dictHas d a = false := by simpa using (List.mem_filter.mp hamem).2
    have h3 : dictHas d a = true := (dictHas_iff d a).mpr ha
    rw [h2] at h3
    exact Bool.noConfusion h3

theorem mem_fillMissing_keys (d : EmotionDict) (e : Emotion) :
    e ∈ dictKeys (fillMissing d) := by
  rw [fillMissing_eq, dictKeys_append]
  have hkeys : dictKeys ((canonicalOrder.filter (fun x => !dictHas d x)).map (fun x => (x, 0)))
      = canonicalOrder.filter (fun x => !dictHas d x) := by
    simp only [dictKeys, List.map_map]
    rw [show (Prod.fst ∘ fun x : Emotion => (x, (0 : ℚ))) = id from rfl, List.map_id]
  rw [hkeys]
  by_cases h : dictHas d e
  · exact List.mem_append_left _ ((dictHas_iff d e).mp h)
  · apply List.mem_append_right
    apply List.mem_filter.mpr
    exact ⟨mem_canonicalOrder e, by simp [h]⟩

theorem fillMissing_nonneg (d : EmotionDict) (h : ∀ p ∈ d, 0 ≤ p.2) :
    ∀ p ∈ fillMissing d, 0 ≤ p.2 := by
  rw [fillMissing_eq]
  intro p hp
  rcases List.mem_append.mp hp with h2 | h2
  · exact h p h2
  · rcases List.mem_map.mp h2 with ⟨e, _, he⟩
    rw [← he]

/-! ### Normalization lemmas -/

theorem dictKeys_normalize (d : EmotionDict) :
    dictKeys (normalizeDict d) = dictKeys d := by
  unfold normalizeDict
  split
  · simp [dictKeys, List.map_map]
  · rfl

theorem sum_map_div (d : EmotionDict) (t : ℚ) :
    (d.map (fun p => p.2 / t)).sum = dictTotal d / t := by
  induction d with
  | nil => simp [dictTotal]
  | cons p rest ih =>
    simp [dictTotal, add_div] at *
    rw [ih]

theorem normalize_total (d : EmotionDict) (h : 0 < dictTotal d) :
    dictTotal (normalizeDict d) = 1 := by
  unfold normalizeDict
  rw [if_pos h]
  show (List.map Prod.snd (d.map (fun p => (p.1, p.2 / dictTotal d)))).sum = 1
  rw [List.map_map]
  rw [show (Prod.snd ∘ fun p : Emotion × ℚ => (p.1, p.2 / dictTotal d))
      = fun p : Emotion × ℚ => p.2 / dictTotal d from rfl]
  rw [sum_map_div]
  exact div_self (ne_of_gt h)

theorem normalize_nonneg (d : EmotionDict) (h : ∀ p ∈ d, 0 ≤ p.2) :
    ∀ p ∈ normalizeDict d, 0 ≤ p.2 := by
  unfold normalizeDict
  split
  · intro p hp
    rcases List.mem_map.mp hp with ⟨q, hq, he⟩
    rw [← he]
    exact div_nonneg (h q hq) (le_of_lt (by assumption))
  · exact h

theorem normalize_of_total_zero (d : EmotionDict) (h : dictTotal d = 0) :
    normalizeDict d = d := by
  unfold normalizeDict
  rw [if_neg]
  rw [h]
  exact lt_irrefl 0

theorem sum_zero_of_nonneg (l : List ℚ) (h : ∀ q ∈ l, 0 ≤ q) (hs : l.sum = 0) :
    ∀ q ∈ l, q = 0 := by
  induction l with
  | nil => simp
  | cons q rest ih =>
    rw [List.sum_cons] at hs
    have hq : 0 ≤ q := h q (by simp)
    have hrest : 0 ≤ rest.sum := List.sum_nonneg (fun x hx => h x (by simp [hx]))
    have hq0 : q = 0 := le_antisymm (by linarith) hq
    intro x hx
    rcases List.mem_cons.mp hx with h2 | h2
    · rw [h2, hq0]
    · exact ih (fun y hy => h y (by simp [hy])) (by linarith [hq0 ▸ hs]) x h2


/-! ### Shape of the reconciled vector -/

theorem reconcile_keys_perm (res : List (Label × ℚ)) :
    (dictKeys (get_emotion_from_huggingface res)).Perm canonicalOrder := by
  unfold get_emotion_from_huggingface
  rw [dictKeys_normalize]
  refine (List.perm_ext_iff_of_nodup
    (fillMissing_keys_nodup _ (collectEmotions_keys_nodup res)) (by decide)).mpr ?_
  intro a
  exact ⟨fun _ => mem_canonicalOrder a, fun _ => mem_fillMissing_keys _ a⟩

theorem reconcile_length (res : List (Label × ℚ)) :
    (get_emotion_from_huggingface res).length = 7 := by
  have h1 := (reconcile_keys_perm res).length_eq
  simpa [dictKeys, canonicalOrder] using h1

theorem reconcile_ne_nil (res : List (Label × ℚ)) :
    get_emotion_from_huggingface res ≠ [] := by
  intro h
  have h2 := reconcile_length res
  rw [h] at h2
  simp at h2

theorem reconcile_nonneg (res : List (Label × ℚ)) (h : ∀ p ∈ res, 0 ≤ p.2) :
    ∀ p ∈ get_emotion_from_huggingface res, 0 ≤ p.2 :=
  normalize_nonneg _ (fillMissing_nonneg _ (collectEmotions_nonneg res h))


/-- Claim C1, amended: for every raw label/score sequence with non-negative
scores, `reconcile` returns a vector carrying exactly the 7 canonical slots
with all values non-negative; when the pre-normalization total is positive
the values sum to exactly 1, and when the total is exactly 0 the result is
the zero vector (every slot 0), not the uniform distribution. -/
theorem C1_reconcile_wellformed (res : List (Label × ℚ)) (hpos : ∀ p ∈ res, 0 ≤ p.2) :
    (dictKeys (get_emotion_from_huggingface res)).Perm canonicalOrder ∧
    (∀ p ∈ get_emotion_from_huggingface res, 0 ≤ p.2) ∧
    (0 < dictTotal (fillMissing (collectEmotions res)) →
      dictTotal (get_emotion_from_huggingface res) = 1) ∧
    (dictTotal (fillMissing (collectEmotions res)) = 0 →
      ∀ p ∈ get_emotion_from_huggingface res, p.2 = 0) := by
  refine ⟨reconcile_keys_perm res, reconcile_nonneg res hpos, ?_, ?_⟩
  · intro ht
    exact normalize_total _ ht
  · intro ht
    unfold get_emotion_from_huggingface
    rw [normalize_of_total_zero _ ht]
    intro p hp
    have hnn := fillMissing_nonneg _ (collectEmotions_nonneg res hpos)
    have hz : ∀ q ∈ (fillMissing (collectEmotions res)).map Prod.snd, q = 0 := by
      apply sum_zero_of_nonneg
      · intro q hq
        rcases List.mem_map.mp hq with ⟨p2, hp2, he⟩
        rw [← he]
        exact hnn p2 hp2
      · exact ht
    exact hz p.2 (List.mem_map.mpr ⟨p, hp, rfl⟩)

/-- Claim C1, counterexample: at the empty input (total of matched scores
exactly 0) the code returns the zero vector, whose slots are 0, not 1/7,
and whose values sum to 0, not 1. -/
theorem C1_zero_total_counterexample :
    dictGet (get_emotion_from_huggingface []) Emotion.anger = some 0 ∧
    dictGet (get_emotion_from_huggingface []) Emotion.anger ≠ some (1 / 7) ∧
    dictTotal (get_emotion_from_huggingface []) ≠ 1 := by
  have h1 : fillMissing (collectEmotions []) =
      [(Emotion.anger, 0), (Emotion.disgust, 0), (Emotion.fear, 0), (Emotion.happiness, 0),
       (Emotion.neutral, 0), (Emotion.sadness, 0), (Emotion.surprise, 0)] := rfl
  have h2 : dictTotal (fillMissing (collectEmotions [])) = 0 := by
    rw [h1]
    simp [dictTotal]
  have h3 : get_emotion_from_huggingface [] = fillMissing (collectEmotions []) := by
    unfold get_emotion_from_huggingface
    exact normalize_of_total_zero _ h2
  refine ⟨?_, ?_, ?_⟩
  · rw [h3, h1]
    simp [dictGet]
  · rw [h3, h1]
    simp [dictGet]
  · rw [h3, h2]
    norm_num

/-- Witness for the amended C1 at a concrete one-label input. -/
theorem C1_reconcile_wellformed_witness :
    (dictKeys (get_emotion_from_huggingface [((("anger").data), (1 : ℚ) / 2)])).Perm
      canonicalOrder :=
  (C1_reconcile_wellformed [((("anger").data), (1 : ℚ) / 2)]
    (by intro p hp; simp at hp; rw [hp]; norm_num)).1


/-! ### The append path of `main` -/

theorem process_attempt_some_eq (recs : List Recording) (res : List (Label × ℚ)) (ts : ℕ)
    (audio : List Char) (inten : ℚ) (lang : List Char) :
    ∃ r : Recording,
      process_attempt recs (some res) ts audio inten lang = recs ++ [r] ∧
      r.emotions = get_emotion_from_huggingface res ∧
      maxKey (get_emotion_from_huggingface res) = some r.dominant_emotion ∧
      maxVal (get_emotion_from_huggingface res) = some r.confidence ∧
      r.timestamp = ts ∧ r.intensity = inten ∧ r.audio_path = audio ∧ r.language = lang := by
  rcases hd : get_emotion_from_huggingface res with _ | ⟨p, rest⟩
  · exact absurd hd (reconcile_ne_nil res)
  · refine ⟨⟨ts, p :: rest, maxKeyAux p rest,
      maxValAux p.2 (rest.map Prod.snd), inten, audio, lang⟩, ?_, rfl, rfl, rfl, rfl, rfl, rfl, rfl⟩
    simp only [process_attempt]
    rw [hd]
    simp [save_recording, maxKey, maxVal]

/-- Claim C4: when the classification call fails (`get_emotion_from_huggingface`
returns `None` — no API token or a raised exception), no recording is
appended and the store is exactly as before; on success, exactly one
recording carrying the reconciled vector is appended (all-or-nothing). -/
theorem C4_failure_leaves_store (recs : List Recording) (ts : ℕ) (audio : List Char)
    (inten : ℚ) (lang : List Char) :
    process_attempt recs none ts audio inten lang = recs ∧
    ∀ res : List (Label × ℚ), ∃ r : Recording,
      process_attempt recs (some res) ts audio inten lang = recs ++ [r] ∧
      r.emotions = get_emotion_from_huggingface res := by
  constructor
  · rfl
  · intro res
    obtain ⟨r, h1, h2, _⟩ := process_attempt_some_eq recs res ts audio inten lang
    exact ⟨r, h1, h2⟩


/-! ### Confidence adjustment and reset -/

theorem adjust_confidence_ne_nil (recs : List Recording) (f : ℚ) (h : recs ≠ []) :
    adjust_confidence recs f ≠ [] := by
  induction recs using List.reverseRecOn with
  | nil => exact absurd rfl h
  | append_singleton l x _ =>
    unfold adjust_confidence
    rw [List.getLast?_concat]
    simp

theorem foldl_adjust_ne_nil (factors : List ℚ) :
    ∀ s : List Recording, s ≠ [] → factors.foldl adjust_confidence s ≠ [] := by
  induction factors with
  | nil => intro s hs; simpa using hs
  | cons f rest ih =>
    intro s hs
    rw [List.foldl_cons]
    exact ih _ (adjust_confidence_ne_nil s f hs)

theorem reset_tail_confidence (recs : List Recording) (emotions : EmotionDict)
    (h : recs ≠ []) (m : ℚ) (hm : maxVal emotions = some m) :
    (reset_confidence recs emotions).getLast?.map Recording.confidence = some m := by
  induction recs using List.reverseRecOn with
  | nil => exact absurd rfl h
  | append_singleton l x _ =>
    unfold reset_confidence
    rw [List.getLast?_concat, hm]
    rw [List.dropLast_concat, List.getLast?_concat]
    rfl

/-- Claim C6: after the recording created by a successful attempt has had its
confidence multiplied by an arbitrary sequence of factors, resetting sets
the tail confidence back to exactly `max(emotions.values())` of the
reconciled vector — the same value it was given at creation. -/
theorem C6_reset_restores_confidence (recs : List Recording) (res : List (Label × ℚ))
    (ts : ℕ) (audio : List Char) (inten : ℚ) (lang : List Char) (factors : List ℚ) :
    (reset_confidence
        (factors.foldl adjust_confidence (process_attempt recs (some res) ts audio inten lang))
        (get_emotion_from_huggingface res)).getLast?.map Recording.confidence
      = maxVal (get_emotion_from_huggingface res) ∧
    (process_attempt recs (some res) ts audio inten lang).getLast?.map Recording.confidence
      = maxVal (get_emotion_from_huggingface res) := by
  obtain ⟨r, h1, _, _, hval, _⟩ := process_attempt_some_eq recs res ts audio inten lang
  constructor
  · rw [h1, hval]
    apply reset_tail_confidence
    · apply foldl_adjust_ne_nil
      simp
    · exact hval
  · rw [h1, List.getLast?_concat, hval]
    rfl

/-- Claim C7: `adjust_confidence` changes only the confidence scalar of the
tail recording: the store keeps its length, every non-tail recording is
unchanged, and the tail keeps its emotion vector (no renormalization),
dominant emotion, timestamp, intensity, audio path and language, while its
confidence becomes the old value times the factor. -/
theorem C7_adjust_frame (recs : List Recording) (h : recs ≠ []) (f : ℚ) :
    (adjust_confidence recs f).length = recs.length ∧
    (adjust_confidence recs f).dropLast = recs.dropLast ∧
    (adjust_confidence recs f).getLast?.map Recording.emotions
      = recs.getLast?.map Recording.emotions ∧
    (adjust_confidence recs f).getLast?.map Recording.dominant_emotion
      = recs.getLast?.map Recording.dominant_emotion ∧
    (adjust_confidence recs f).getLast?.map Recording.timestamp
      = recs.getLast?.map Recording.timestamp ∧
    (adjust_confidence recs f).getLast?.map Recording.intensity
      = recs.getLast?.map Recording.intensity ∧
    (adjust_confidence recs f).getLast?.map Recording.audio_path
      = recs.getLast?.map Recording.audio_path ∧
    (adjust_confidence recs f).getLast?.map Recording.language
      = recs.getLast?.map Recording.language ∧
    (adjust_confidence recs f).getLast?.map Recording.confidence
      = recs.getLast?.map (fun r => r.confidence * f) := by
  induction recs using List.reverseRecOn with
  | nil => exact absurd rfl h
  | append_singleton l x _ =>
    unfold adjust_confidence
    rw [List.getLast?_concat]
    simp [List.dropLast_concat, List.getLast?_concat]

/-- Witness for C7 at a concrete one-recording store and factor 2. -/
theorem C7_adjust_frame_witness :
    (adjust_confidence [sampleRecording] 2).getLast?.map Recording.emotions
      = ([sampleRecording] : List Recording).getLast?.map Recording.emotions :=
  (C7_adjust_frame [sampleRecording] (by simp) 2).2.2.1


/-! ### Silent-buffer normalization -/

theorem foldl_maxAbs_zero (rest : List ℚ) (h : ∀ w ∈ rest, w = 0) :
    rest.foldl (fun m w => max m |w|) 0 = 0 := by
  induction rest with
  | nil => rfl
  | cons w rest2 ih =>
    rw [List.foldl_cons, h w (by simp)]
    simpa using ih (fun x hx => h x (by simp [hx]))

theorem maxAbs_zero (y : List ℚ) (hne : y ≠ []) (hz : ∀ v ∈ y, v = 0) :
    maxAbs y = some 0 := by
  cases y with
  | nil => exact absurd rfl hne
  | cons v rest =>
    have hv : v = 0 := hz v (by simp)
    subst hv
    show some (List.foldl (fun m w => max m |w|) |(0 : ℚ)| rest) = some 0
    rw [abs_zero, foldl_maxAbs_zero rest (fun x hx => hz x (by simp [hx]))]

/-- Claim C5, amended: on an all-zero (exactly silent) buffer the
normalization step does not raise — a buffer of the input's length is
returned — but the division is not skipped: every sample becomes `0.0/0.0`,
i.e. NaN, rather than the unchanged silent signal. -/
theorem C5_silent_gives_nan (y : List ℚ) (hne : y ≠ []) (hz : ∀ v ∈ y, v = 0) :
    normalize_audio y = some (y.map (fun _ => NpVal.nan)) := by
  unfold normalize_audio
  rw [maxAbs_zero y hne hz]
  simp only [Option.map_some']
  congr 1
  apply List.map_congr_left
  intro v hv
  rw [hz v hv]
  simp [npDiv]

/-- Claim C5, counterexample: the one-sample silent buffer comes back as
`[NaN]`, not as the unchanged silent signal `[0]`. -/
theorem C5_nan_counterexample :
    normalize_audio [(0 : ℚ)] = some [NpVal.nan] ∧ NpVal.nan ≠ NpVal.val 0 := by
  constructor
  · simp [normalize_audio, maxAbs, npDiv]
  · simp

/-- Witness for the amended C5 at the one-sample silent buffer. -/
theorem C5_silent_gives_nan_witness :
    normalize_audio [(0 : ℚ)] = some (([(0 : ℚ)]).map (fun _ => NpVal.nan)) :=
  C5_silent_gives_nan [(0 : ℚ)] (by simp) (by simp)

/-! ### Feedback-log reading -/

theorem read_feedback_none (lines : List (Option FeedbackEntry)) (h : none ∈ lines) :
    read_feedback lines = none := by
  induction lines with
  | nil => simp at h
  | cons l rest ih =>
    cases l with
    | none => rfl
    | some e =>
      have h2 : none ∈ rest := by
        rcases List.mem_cons.mp h with h1 | h1
        · exact absurd h1.symm (by simp)
        · exact h1
      show (read_feedback rest).map _ = none
      rw [ih h2]
      rfl

theorem read_feedback_all_some (lines : List (Option FeedbackEntry))
    (h : ∀ l ∈ lines, l ≠ none) :
    ∃ entries, read_feedback lines = some entries ∧ entries.length = lines.length := by
  induction lines with
  | nil => exact ⟨[], rfl, rfl⟩
  | cons l rest ih =>
    obtain ⟨entries, h1, h2⟩ := ih (fun x hx => h x (by simp [hx]))
    cases l with
    | none => exact absurd rfl (h none (by simp))
    | some e =>
      refine ⟨e :: entries, ?_, by simp [h2]⟩
      show (read_feedback rest).map _ = _
      rw [h1]
      rfl

/-- Claim C8, amended: a corrupted (unparseable) line is fatal, not skipped:
the read loop has no exception handling, so the whole statistics block is
aborted and none of the aggregates is computed, no matter how many lines
are well-formed; only when every line parses are all lines read and
counted. -/
theorem C8_corrupt_line_fatal (lines : List (Option FeedbackEntry)) :
    (none ∈ lines → feedback_stats lines = none) ∧
    ((∀ l ∈ lines, l ≠ none) →
      ∃ entries, read_feedback lines = some entries ∧ entries.length = lines.length) := by
  constructor
  · intro h
    simp [feedback_stats, read_feedback_none lines h]
  · exact read_feedback_all_some lines

/-- Claim C8, counterexample: with one corrupted line between two
well-formed ones, the code computes no statistics at all (the read loop
aborts), instead of skipping the bad line and counting the remaining 2. -/
theorem C8_counterexample :
    read_feedback [some sampleEntry1, none, some sampleEntry2] = none ∧
    read_feedback [some sampleEntry1, none, some sampleEntry2]
      ≠ some [sampleEntry1, sampleEntry2] ∧
    feedback_stats [some sampleEntry1, none, some sampleEntry2] = none := by
  refine ⟨rfl, ?_, rfl⟩
  intro h
  exact Option.noConfusion h

/-- Witness for the amended C8: one corrupted line aborts the statistics. -/
theorem C8_corrupt_line_fatal_witness :
    feedback_stats [some sampleEntry1, none] = none :=
  (C8_corrupt_line_fatal [some sampleEntry1, none]).1 (by simp)


/-! ### Overwrite semantics of the collection loop -/

theorem collect_last_wins (res : List (Label × ℚ)) (e : Emotion) :
    dictGet (collectEmotions res) e = lastMatchScore res e := by
  induction res using List.reverseRecOn with
  | nil => rfl
  | append_singleton l it ih =>
    unfold collectEmotions at ih ⊢
    rw [List.foldl_append, List.foldl_cons, List.foldl_nil]
    unfold lastMatchScore at ih ⊢
    rw [List.filter_append]
    cases hm : matchLabel it.1 with
    | none =>
      unfold applyItem
      rw [hm]
      have hf : List.filter (fun p => decide (matchLabel p.1 = some e)) [it] = [] := by
        simp [hm]
      rw [hf, List.append_nil]
      exact ih
    | some e2 =>
      unfold applyItem
      rw [hm]
      by_cases he : e2 = e
      · subst he
        rw [dictGet_set_self]
        have hf : List.filter (fun p => decide (matchLabel p.1 = some e2)) [it] = [it] := by
          simp [hm]
        rw [hf, List.getLast?_concat]
        rfl
      · rw [dictGet_set_other _ _ _ _ (fun hh => he hh.symm)]
        have hf : List.filter (fun p => decide (matchLabel p.1 = some e)) [it] = [] := by
          simp [hm, he]
        rw [hf, List.append_nil]
        exact ih


/-- Claim C2, amended: when multiple raw labels map to the same canonical
slot, the slot's pre-normalization score equals the last such label's score
— each matching assignment overwrites the slot, it does not add.  The
documented example still yields Happiness = 1.0 and all other slots 0.0,
because Happiness is the only nonzero slot before renormalization. -/
theorem C2_overwrite_semantics :
    (∀ (res : List (Label × ℚ)) (e : Emotion),
      dictGet (collectEmotions res) e = lastMatchScore res e) ∧
    dictGet (get_emotion_from_huggingface
        [((("joy").data), (3 : ℚ)/5), ((("happy").data), 3/10)]) Emotion.happiness = some 1 ∧
    (∀ e : Emotion, e ≠ Emotion.happiness →
      dictGet (get_emotion_from_huggingface
        [((("joy").data), (3 : ℚ)/5), ((("happy").data), 3/10)]) e = some 0) := by
  have h1 : fillMissing (collectEmotions [((("joy").data), (3 : ℚ)/5), ((("happy").data), 3/10)]) =
      [(Emotion.happiness, 3/10), (Emotion.anger, 0), (Emotion.disgust, 0), (Emotion.fear, 0),
       (Emotion.neutral, 0), (Emotion.sadness, 0), (Emotion.surprise, 0)] := rfl
  have h2 : dictTotal
      [(Emotion.happiness, (3 : ℚ)/10), (Emotion.anger, 0), (Emotion.disgust, 0), (Emotion.fear, 0),
       (Emotion.neutral, 0), (Emotion.sadness, 0), (Emotion.surprise, 0)] = 3/10 := by
    simp [dictTotal]
  have hN : get_emotion_from_huggingface
      [((("joy").data), (3 : ℚ)/5), ((("happy").data), 3/10)] =
      [(Emotion.happiness, 1), (Emotion.anger, 0), (Emotion.disgust, 0), (Emotion.fear, 0),
       (Emotion.neutral, 0), (Emotion.sadness, 0), (Emotion.surprise, 0)] := by
    unfold get_emotion_from_huggingface
    rw [h1]
    unfold normalizeDict
    rw [h2]
    rw [if_pos (by norm_num : (3 : ℚ)/10 > 0)]
    norm_num
  refine ⟨collect_last_wins, ?_, ?_⟩
  · rw [hN]
    simp [dictGet]
  · intro e he
    rw [hN]
    cases e <;> simp [dictGet] at he ⊢

/-- Claim C2, counterexample: with `[("joy",0.6),("happy",0.3)]` the
pre-normalization Happiness slot holds 0.3 (the last score), not the sum
0.9; and with a third label `("sad",0.3)` the final vector gives Happiness
1/2, whereas summing would give 0.9/1.2 = 3/4. -/
theorem C2_sum_counterexample :
    dictGet (fillMissing (collectEmotions
        [((("joy").data), (3 : ℚ)/5), ((("happy").data), 3/10)])) Emotion.happiness
      = some (3/10) ∧
    (3/10 : ℚ) ≠ 3/5 + 3/10 ∧
    dictGet (get_emotion_from_huggingface
        [((("joy").data), (3 : ℚ)/5), ((("happy").data), 3/10), ((("sad").data), 3/10)])
      Emotion.happiness = some (1/2) ∧
    (1/2 : ℚ) ≠ 3/4 := by
  have h1 : fillMissing (collectEmotions
      [((("joy").data), (3 : ℚ)/5), ((("happy").data), 3/10), ((("sad").data), 3/10)]) =
      [(Emotion.happiness, 3/10), (Emotion.sadness, 3/10), (Emotion.anger, 0),
       (Emotion.disgust, 0), (Emotion.fear, 0), (Emotion.neutral, 0), (Emotion.surprise, 0)] := rfl
  have h2 : dictTotal
      [(Emotion.happiness, (3 : ℚ)/10), (Emotion.sadness, 3/10), (Emotion.anger, 0),
       (Emotion.disgust, 0), (Emotion.fear, 0), (Emotion.neutral, 0), (Emotion.surprise, 0)]
      = 3/5 := by
    simp [dictTotal]
    norm_num
  refine ⟨rfl, by norm_num, ?_, by norm_num⟩
  unfold get_emotion_from_huggingface
  rw [h1]
  unfold normalizeDict
  rw [h2]
  rw [if_pos (by norm_num : (3 : ℚ)/5 > 0)]
  norm_num [dictGet]

/-- Witness for the amended C2: a slot other than Happiness evaluates to 0. -/
theorem C2_overwrite_semantics_witness :
    dictGet (get_emotion_from_huggingface
        [((("joy").data), (3 : ℚ)/5), ((("happy").data), 3/10)]) Emotion.anger = some 0 :=
  C2_overwrite_semantics.2.2 Emotion.anger (by decide)


/-! ### Specification of the dominant-emotion selection -/

theorem maxKeyAux_spec (rest : EmotionDict) :
    ∀ cur : Emotion × ℚ,
      ∃ v pre suf, cur :: rest = pre ++ (maxKeyAux cur rest, v) :: suf ∧
        (∀ p ∈ pre, p.2 < v) ∧ (∀ p ∈ cur :: rest, p.2 ≤ v) := by
  induction rest with
  | nil =>
    intro cur
    refine ⟨cur.2, [], [], by simp [maxKeyAux], by simp, ?_⟩
    intro p hp
    simp at hp
    rw [hp]
  | cons p rest ih =>
    intro cur
    unfold maxKeyAux
    by_cases h : p.2 > cur.2
    · rw [if_pos h]
      obtain ⟨v, pre, suf, he, hpre, hall⟩ := ih p
      have hpv : p.2 ≤ v := hall p (by simp)
      refine ⟨v, cur :: pre, suf, ?_, ?_, ?_⟩
      · rw [List.cons_append, ← he]
      · intro q hq
        rcases List.mem_cons.mp hq with h2 | h2
        · rw [h2]; linarith
        · exact hpre q h2
      · intro q hq
        rcases List.mem_cons.mp hq with h2 | h2
        · rw [h2]; linarith
        · exact hall q h2
    · rw [if_neg h]
      obtain ⟨v, pre, suf, he, hpre, hall⟩ := ih cur
      have hcv : cur.2 ≤ v := hall cur (by simp)
      have hpc : p.2 ≤ cur.2 := le_of_not_lt h
      cases pre with
      | nil =>
        rw [List.nil_append] at he
        obtain ⟨hc, hr⟩ := List.cons.inj he
        refine ⟨v, [], p :: suf, ?_, by simp, ?_⟩
        · rw [List.nil_append, ← hr]
          rw [show ((maxKeyAux cur rest, v) : Emotion × ℚ) = cur from hc.symm]
        · intro q hq
          rcases List.mem_cons.mp hq with h2 | h2
          · rw [h2]; exact hcv
          · rcases List.mem_cons.mp h2 with h3 | h3
            · rw [h3]; linarith
            · exact hall q (by simp [h3])
      | cons q0 pre2 =>
        rw [List.cons_append] at he
        obtain ⟨hc, hr⟩ := List.cons.inj he
        have hq0 : cur.2 < v := by
          have := hpre q0 (by simp)
          rw [← hc] at this
          exact this
        refine ⟨v, cur :: p :: pre2, suf, ?_, ?_, ?_⟩
        · rw [List.cons_append, List.cons_append, ← hr]
        · intro q hq
          rcases List.mem_cons.mp hq with h2 | h2
          · rw [h2]; exact hq0
          · rcases List.mem_cons.mp h2 with h3 | h3
            · rw [h3]; linarith
            · exact hpre q (by simp [h3])
        · intro q hq
          rcases List.mem_cons.mp hq with h2 | h2
          · rw [h2]; exact hcv
          · rcases List.mem_cons.mp h2 with h3 | h3
            · rw [h3]; linarith
            · exact hall q (List.mem_cons_of_mem _ h3)

theorem maxKey_first_max (d : EmotionDict) (h : d ≠ []) :
    ∃ k v pre suf, maxKey d = some k ∧ d = pre ++ (k, v) :: suf ∧
      (∀ p ∈ pre, p.2 < v) ∧ (∀ p ∈ d, p.2 ≤ v) := by
  cases d with
  | nil => exact absurd rfl h
  | cons p rest =>
    obtain ⟨v, pre, suf, he, hpre, hall⟩ := maxKeyAux_spec rest p
    exact ⟨maxKeyAux p rest, v, pre, suf, rfl, he, hpre, hall⟩


/-- Claim C3, amended: the appended recording's `dominant_emotion` carries
the maximal score of its emotion vector, but a tie is broken by the
emotions dict's insertion order (the order in which slots were first
matched from the classifier output, then unmatched slots in taxonomy
order), not by canonical taxonomy order: the dominant emotion is the first
dict entry attaining the maximum. -/
theorem C3_dominant_first_max (recs : List Recording) (res : List (Label × ℚ)) (ts : ℕ)
    (audio : List Char) (inten : ℚ) (lang : List Char) :
    ∃ (r : Recording) (v : ℚ) (pre suf : EmotionDict),
      process_attempt recs (some res) ts audio inten lang = recs ++ [r] ∧
      r.emotions = get_emotion_from_huggingface res ∧
      r.emotions = pre ++ (r.dominant_emotion, v) :: suf ∧
      (∀ p ∈ pre, p.2 < v) ∧ (∀ p ∈ r.emotions, p.2 ≤ v) := by
  obtain ⟨r, h1, h2, hkey, _⟩ := process_attempt_some_eq recs res ts audio inten lang
  obtain ⟨k, v, pre, suf, hk, hd, hpre, hall⟩ :=
    maxKey_first_max (get_emotion_from_huggingface res) (reconcile_ne_nil res)
  have hke : k = r.dominant_emotion := by
    rw [hkey] at hk
    exact (Option.some.inj hk).symm
  subst hke
  refine ⟨r, v, pre, suf, h1, h2, ?_, hpre, ?_⟩
  · rw [h2]
    exact hd
  · rw [h2]
    exact hall

/-- Claim C3, counterexample: with the classifier returning Disgust before
Anger, both at score 0.5, the stored dominant emotion is Disgust — the tie
is not broken by taxonomy order (which would give Anger). -/
theorem C3_taxonomy_tie_counterexample :
    (process_attempt []
        (some [((("disgust").data), (1 : ℚ)/2), ((("anger").data), 1/2)]) 0 [] 1 []).map
      (fun r => r.dominant_emotion) = [Emotion.disgust] ∧
    dictGet (get_emotion_from_huggingface
        [((("disgust").data), (1 : ℚ)/2), ((("anger").data), 1/2)]) Emotion.anger
      = dictGet (get_emotion_from_huggingface
        [((("disgust").data), (1 : ℚ)/2), ((("anger").data), 1/2)]) Emotion.disgust ∧
    Emotion.disgust ≠ Emotion.anger := by
  have h1 : fillMissing (collectEmotions
      [((("disgust").data), (1 : ℚ)/2), ((("anger").data), 1/2)]) =
      [(Emotion.disgust, 1/2), (Emotion.anger, 1/2), (Emotion.fear, 0), (Emotion.happiness, 0),
       (Emotion.neutral, 0), (Emotion.sadness, 0), (Emotion.surprise, 0)] := rfl
  have h2 : dictTotal
      [(Emotion.disgust, (1 : ℚ)/2), (Emotion.anger, 1/2), (Emotion.fear, 0),
       (Emotion.happiness, 0), (Emotion.neutral, 0), (Emotion.sadness, 0),
       (Emotion.surprise, 0)] = 1 := by
    simp [dictTotal]
    norm_num
  have hN : get_emotion_from_huggingface
      [((("disgust").data), (1 : ℚ)/2), ((("anger").data), 1/2)] =
      [(Emotion.disgust, 1/2), (Emotion.anger, 1/2), (Emotion.fear, 0), (Emotion.happiness, 0),
       (Emotion.neutral, 0), (Emotion.sadness, 0), (Emotion.surprise, 0)] := by
    unfold get_emotion_from_huggingface
    rw [h1]
    unfold normalizeDict
    rw [h2]
    rw [if_pos (by norm_num : (1 : ℚ) > 0)]
    norm_num
  refine ⟨?_, ?_, by decide⟩
  · simp only [process_attempt]
    rw [hN]
    simp only [List.isEmpty_cons, Bool.false_eq_true, if_false]
    simp only [save_recording, maxKey, maxVal, List.map_cons]
    norm_num [maxKeyAux, maxValAux]
  · rw [hN]
    simp [dictGet]


/-! ### First-match semantics of the synonym chain -/

theorem matchLabel_eq_find (label : Label) :
    matchLabel label = canonicalOrder.find? (fun e => synMatch e label) := by
  unfold matchLabel canonicalOrder synMatch
  cases h1 : hasSub (lower label) (("anger").data) <;>
    cases h2 : hasSub (lower label) (("disgust").data) <;>
      cases h3 : hasSub (lower label) (("fear").data) <;>
        cases h4 : (hasSub (lower label) (("happy").data) || hasSub (lower label) (("joy").data)) <;>
          cases h5 : hasSub (lower label) (("neutral").data) <;>
            cases h6 : hasSub (lower label) (("sad").data) <;>
              cases h7 : hasSub (lower label) (("surprise").data) <;>
                simp [List.find?, h1, h2, h3, h4, h5, h6, h7]

/-- Claim C10: each raw label contributes its score to at most one canonical
slot — the one selected by the first matching substring test in the fixed
branch order Anger, Disgust, Fear, Happiness ("happy" or "joy"), Neutral,
Sadness, Surprise over the lowercased label; every other slot's entry is
untouched by the item, even when the label contains synonyms of several
emotions. -/
theorem C10_first_match_single_slot (label : Label) (s : ℚ) (d : EmotionDict) :
    matchLabel label = canonicalOrder.find? (fun e => synMatch e label) ∧
    (∀ e : Emotion, matchLabel label ≠ some e →
      dictGet (applyItem d (label, s)) e = dictGet d e) ∧
    (∀ e : Emotion, matchLabel label = some e →
      dictGet (applyItem d (label, s)) e = some s) := by
  refine ⟨matchLabel_eq_find label, ?_, ?_⟩
  · intro e hne
    unfold applyItem
    cases hm : matchLabel label with
    | none => rfl
    | some e2 =>
      have he : e ≠ e2 := by
        intro hh
        rw [hh] at hne
        exact hne hm
      exact dictGet_set_other d e2 e s he
  · intro e hm
    unfold applyItem
    rw [hm]
    exact dictGet_set_self d e s

/-- Witness for C10 at the label "sad_anger", which contains synonyms of
both Sadness and Anger: only the Anger slot (earliest in branch order) is
written; the Sadness slot is untouched. -/
theorem C10_first_match_single_slot_witness :
    dictGet (applyItem [] ((("sad_anger").data), (1 : ℚ))) Emotion.sadness
      = dictGet [] Emotion.sadness ∧
    dictGet (applyItem [] ((("sad_anger").data), (1 : ℚ))) Emotion.anger = some 1 :=
  ⟨(C10_first_match_single_slot (("sad_anger").data) 1 []).2.1 Emotion.sadness (by decide),
   (C10_first_match_single_slot (("sad_anger").data) 1 []).2.2 Emotion.anger (by decide)⟩


/-! ### Mode computation -/

theorem emotionName_injective : Function.Injective emotionName := by
  intro a b h
  cases a <;> cases b <;> first | rfl | (exact absurd h (by decide))

theorem strLt_name (a b : Emotion) :
    strLtChars (emotionName a) (emotionName b) = decide (taxIdx a < taxIdx b) := by
  cases a <;> cases b <;> decide

theorem name_beq (x e : Emotion) : (emotionName x == emotionName e) = (x == e) := by
  cases x <;> cases e <;> decide

theorem count_name (es : List Emotion) (e : Emotion) :
    (es.map emotionName).count (emotionName e) = es.count e := by
  induction es with
  | nil => rfl
  | cons x rest ih =>
    rw [List.map_cons, List.count_cons, List.count_cons, ih, name_beq]

theorem le_foldl_max (l : List ℕ) :
    ∀ acc : ℕ, acc ≤ l.foldl max acc ∧ ∀ v ∈ l, v ≤ l.foldl max acc := by
  induction l with
  | nil => intro acc; exact ⟨le_refl acc, by simp⟩
  | cons v rest ih =>
    intro acc
    rw [List.foldl_cons]
    obtain ⟨h1, h2⟩ := ih (max acc v)
    constructor
    · exact le_trans (le_max_left acc v) h1
    · intro w hw
      rcases List.mem_cons.mp hw with h3 | h3
      · rw [h3]; exact le_trans (le_max_right acc v) h1
      · exact h2 w h3

theorem le_maxNatList (l : List ℕ) (v : ℕ) (h : v ∈ l) : v ≤ maxNatList l :=
  (le_foldl_max l 0).2 v h

theorem foldl_max_mem (l : List ℕ) :
    ∀ acc : ℕ, l.foldl max acc = acc ∨ l.foldl max acc ∈ l := by
  induction l with
  | nil => intro acc; exact Or.inl rfl
  | cons v rest ih =>
    intro acc
    rw [List.foldl_cons]
    rcases ih (max acc v) with h1 | h1
    · rw [h1]
      rcases le_total acc v with h2 | h2
      · rw [max_eq_right h2]; exact Or.inr (by simp)
      · rw [max_eq_left h2]; exact Or.inl rfl
    · exact Or.inr (by simp [h1])

theorem maxNatList_attained (es : List Emotion) (hne : es ≠ []) :
    ∃ x ∈ es, es.count x = maxNatList (es.map (fun e => es.count e)) := by
  rcases foldl_max_mem (es.map (fun e => es.count e)) 0 with h1 | h1
  · cases es with
    | nil => exact absurd rfl hne
    | cons x0 rest =>
      have hpos : 0 < (x0 :: rest).count x0 := List.count_pos_iff.mpr (by simp)
      have hle : (x0 :: rest).count x0
          ≤ maxNatList ((x0 :: rest).map (fun e => (x0 :: rest).count e)) :=
        le_maxNatList _ _ (List.mem_map.mpr ⟨x0, by simp, rfl⟩)
      rw [show maxNatList ((x0 :: rest).map (fun e => (x0 :: rest).count e))
          = ((x0 :: rest).map (fun e => (x0 :: rest).count e)).foldl max 0 from rfl, h1] at hle
      omega
  · rcases List.mem_map.mp h1 with ⟨x, hx, he⟩
    exact ⟨x, hx, he⟩

theorem fold_name (l : List Emotion) :
    ∀ c : Emotion,
      (l.map emotionName).foldl (fun best x => if strLtChars x best then x else best)
          (emotionName c)
        = emotionName (l.foldl (fun best x => if taxIdx x < taxIdx best then x else best) c) := by
  induction l with
  | nil => intro c; rfl
  | cons x rest ih =>
    intro c
    rw [List.map_cons, List.foldl_cons, List.foldl_cons]
    by_cases h : taxIdx x < taxIdx c
    · have hd : strLtChars (emotionName x) (emotionName c) = true := by
        rw [strLt_name]; exact decide_eq_true h
      rw [hd, if_pos rfl, if_pos h]
      exact ih x
    · have hd : strLtChars (emotionName x) (emotionName c) = false := by
        rw [strLt_name]; exact decide_eq_false h
      rw [hd, if_neg (by simp), if_neg h]
      exact ih c

theorem foldl_min_spec (l : List Emotion) :
    ∀ c : Emotion,
      (l.foldl (fun best x => if taxIdx x < taxIdx best then x else best) c) ∈ c :: l ∧
      ∀ x ∈ c :: l,
        taxIdx (l.foldl (fun best x => if taxIdx x < taxIdx best then x else best) c)
          ≤ taxIdx x := by
  induction l with
  | nil =>
    intro c
    refine ⟨by simp, ?_⟩
    intro x hx
    simp at hx
    rw [hx]
    exact Nat.le_refl _
  | cons y rest ih =>
    intro c
    rw [List.foldl_cons]
    by_cases h : taxIdx y < taxIdx c
    · rw [if_pos h]
      obtain ⟨h1, h2⟩ := ih y
      refine ⟨List.mem_cons_of_mem _ h1, ?_⟩
      intro x hx
      rcases List.mem_cons.mp hx with h3 | h3
      · have hy := h2 y (by simp)
        rw [h3]
        omega
      · exact h2 x h3
    · rw [if_neg h]
      obtain ⟨h1, h2⟩ := ih c
      constructor
      · rcases List.mem_cons.mp h1 with h3 | h3
        · rw [h3]; simp
        · exact List.mem_cons_of_mem _ (List.mem_cons_of_mem _ h3)
      · intro x hx
        rcases List.mem_cons.mp hx with h3 | h3
        · exact h3 ▸ h2 c (by simp)
        · rcases List.mem_cons.mp h3 with h4 | h4
          · have hc := h2 c (by simp)
            rw [h4]
            omega
          · exact h2 x (by simp [h4])


theorem pandas_mode_name (es : List Emotion) (hne : es ≠ []) :
    ∃ e : Emotion,
      pandas_mode (es.map emotionName) = some (emotionName e) ∧
      e ∈ es ∧
      (∀ x ∈ es, es.count x ≤ es.count e) ∧
      (∀ x ∈ es, es.count x = es.count e → taxIdx e ≤ taxIdx x) := by
  have hcounts : (es.map emotionName).map (fun x => (es.map emotionName).count x)
      = es.map (fun e => es.count e) := by
    rw [List.map_map]
    apply List.map_congr_left
    intro e _
    show (es.map emotionName).count (emotionName e) = es.count e
    exact count_name es e
  have hfilter : (es.map emotionName).filter
        (fun x => (es.map emotionName).count x = maxNatList (es.map (fun e => es.count e)))
      = (es.filter (fun e => es.count e = maxNatList (es.map (fun e => es.count e)))).map
          emotionName := by
    rw [List.filter_map]
    congr 1
    apply List.filter_congr
    intro e _
    show decide ((es.map emotionName).count (emotionName e)
          = maxNatList (es.map (fun e => es.count e)))
        = decide (es.count e = maxNatList (es.map (fun e => es.count e)))
    rw [count_name]
  obtain ⟨x0, hx0, hcx0⟩ := maxNatList_attained es hne
  have hx0f : x0 ∈ es.filter
      (fun e => es.count e = maxNatList (es.map (fun e => es.count e))) :=
    List.mem_filter.mpr ⟨hx0, by simp [hcx0]⟩
  rcases hf : es.filter (fun e => es.count e = maxNatList (es.map (fun e => es.count e)))
    with _ | ⟨c, rest⟩
  · rw [hf] at hx0f
    simp at hx0f
  · have hmode : pandas_mode (es.map emotionName)
        = some (emotionName
            (rest.foldl (fun best x => if taxIdx x < taxIdx best then x else best) c)) := by
      simp only [pandas_mode]
      rw [hcounts, hfilter, hf, List.map_cons]
      show some ((rest.map emotionName).foldl
          (fun best x => if strLtChars x best then x else best) (emotionName c)) = _
      rw [fold_name]
    have hcrest : ∀ x ∈ c :: rest,
        x ∈ es ∧ es.count x = maxNatList (es.map (fun e => es.count e)) := by
      intro x hx
      have hxf : x ∈ es.filter
          (fun e => es.count e = maxNatList (es.map (fun e => es.count e))) := by
        rw [hf]
        exact hx
      have hxf2 := List.mem_filter.mp hxf
      exact ⟨hxf2.1, by simpa using hxf2.2⟩
    obtain ⟨hmem, hmin⟩ := foldl_min_spec rest c
    obtain ⟨he0es, he0cnt⟩ :=
      hcrest (rest.foldl (fun best x => if taxIdx x < taxIdx best then x else best) c) hmem
    refine ⟨rest.foldl (fun best x => if taxIdx x < taxIdx best then x else best) c,
      hmode, he0es, ?_, ?_⟩
    · intro x hx
      rw [he0cnt]
      exact le_maxNatList _ _ (List.mem_map.mpr ⟨x, hx, rfl⟩)
    · intro x hx hcx
      have hxf : x ∈ c :: rest := by
        rw [← hf]
        exact List.mem_filter.mpr ⟨hx, by simp [hcx, he0cnt]⟩
      exact hmin x hxf

/-- Claim C9: for every non-empty recording store, the most-common-emotion
metric (`df['Emotion'].mode()[0]`) returns a most frequent dominant
emotion, and a frequency tie is broken by canonical taxonomy order — on
the 7 canonical display names, pandas' ascending lexicographic sort
coincides with taxonomy order. -/
theorem C9_mode_taxonomy (recs : List Recording) (h : recs ≠ []) :
    ∃ e : Emotion,
      most_common recs = some (emotionName e) ∧
      e ∈ recs.map (fun r => r.dominant_emotion) ∧
      (∀ x ∈ recs.map (fun r => r.dominant_emotion),
        (recs.map (fun r => r.dominant_emotion)).count x
          ≤ (recs.map (fun r => r.dominant_emotion)).count e) ∧
      (∀ x ∈ recs.map (fun r => r.dominant_emotion),
        (recs.map (fun r => r.dominant_emotion)).count x
            = (recs.map (fun r => r.dominant_emotion)).count e →
        taxIdx e ≤ taxIdx x) := by
  have hne : recs.map (fun r => r.dominant_emotion) ≠ [] := by
    intro hh
    exact h (List.map_eq_nil_iff.mp hh)
  obtain ⟨e, h1, h2, h3, h4⟩ := pandas_mode_name (recs.map (fun r => r.dominant_emotion)) hne
  refine ⟨e, ?_, h2, h3, h4⟩
  rw [List.map_map] at h1
  exact h1

/-- Witness for C9 at a concrete one-recording store. -/
theorem C9_mode_taxonomy_witness :
    most_common [sampleRecording] = some (emotionName Emotion.anger) := by
  obtain ⟨e, h1, h2, _⟩ := C9_mode_taxonomy [sampleRecording] (by simp)
  have he : e = Emotion.anger := by
    simp [sampleRecording] at h2
    exact h2
  rw [← he]
  exact h1


/-- Witness for C3 at a concrete one-label input: the attempt appends
exactly one recording. -/
theorem C3_dominant_first_max_witness :
    (process_attempt [] (some [((("anger").data), (1 : ℚ))]) 0 [] 1 []).length = 1 := by
  obtain ⟨r, _, _, _, h1, _⟩ := C3_dominant_first_max [] [((("anger").data), (1 : ℚ))] 0 [] 1 []
  rw [h1]
  rfl

/-- Witness for C4: a failed classification leaves the empty store empty. -/
theorem C4_failure_leaves_store_witness :
    process_attempt [] none 0 [] 1 [] = [] :=
  (C4_failure_leaves_store [] 0 [] 1 []).1

/-- Witness for C6 at a concrete input with one adjustment factor. -/
theorem C6_reset_restores_confidence_witness :
    (reset_confidence
        (([2] : List ℚ).foldl adjust_confidence
          (process_attempt [] (some [((("anger").data), (1 : ℚ))]) 0 [] 1 []))
        (get_emotion_from_huggingface [((("anger").data), (1 : ℚ))])).getLast?.map
      Recording.confidence
      = maxVal (get_emotion_from_huggingface [((("anger").data), (1 : ℚ))]) :=
  (C6_reset_restores_confidence [] [((("anger").data), (1 : ℚ))] 0 [] 1 [] [2]).1

end App
